import Mathlib

/-!
Verification of the data-center scheduling core
(`maro/simulator/scenarios/data_center/business_engine.py`).

The engine state and the three event handlers (`_on_vm_required`,
`_on_vm_finished`, `_on_action_received`) are translated from the source.
Python integers are embedded as `Int` (ticks, buffer times, ids) and the
resource / utilization quantities, which Python mixes with float division,
as `ℚ` (exact arithmetic; Python's `/` is modelled as exact division).
A Python exception (KeyError / IndexError) aborts the run; a handler that
would raise returns `none`.
-/

namespace DataCenter

/-- Python list indexing: a negative index wraps around from the end, an
index out of `[-n, n)` raises `IndexError` (modelled as `none`). -/
def pyIdx (n : Nat) (i : Int) : Option Nat :=
  if 0 ≤ i ∧ i < (n : Int) then some i.toNat
  else if -(n : Int) ≤ i ∧ i < 0 then some (i + n).toNat
  else none

/-- Modelled from the spec: `virtual_machine.py` is not under `src/`.
Per §3, a VM record carries `req_cpu`/`req_mem` (fixed), `lifetime`,
`pm_id` (unset before assignment), `start_tick`/`end_tick`, `util_cpu`
and a CPU-utilization curve keyed by elapsed ticks since `start_tick`;
the source refers to the identity field as both `vm_id` and `id`. -/
structure VirtualMachine where
  id : Int
  req_cpu : Int
  req_mem : Int
  lifetime : Int
  pm_id : Int
  start_tick : Int
  end_tick : Int
  util_cpu : ℚ
  util_series : List ℚ
  deriving Repr, DecidableEq, Inhabited

/-- Modelled from the spec: the utilization curve is evaluated at the
elapsed ticks since `start_tick`; index 0 is the tick the VM starts
(source comment in `_update_vm_util`). -/
def VirtualMachine.get_util (vm : VirtualMachine) (cur_tick : Int) : ℚ :=
  vm.util_series.getD (cur_tick - vm.start_tick).toNat 0

/-- Modelled from the spec: `physical_machine.py` is not under `src/`.
Per §3, a PM record carries fixed capacities, reservation totals mutated
only by the scheduling core, a derived `util_cpu`, and the set `vm_set`
of hosted VM ids (a Python `set`, here a duplicate-free list). -/
structure PhysicalMachine where
  id : Nat
  cap_cpu : Int
  cap_mem : Int
  req_cpu : Int
  req_mem : Int
  util_cpu : ℚ
  vm_set : List Int
  deriving Repr, DecidableEq, Inhabited

/-- Modelled from the spec: `add_vm` inserts a VM id into `vm_set`
(`set.add`: no duplicate is created). -/
def PhysicalMachine.add_vm (pm : PhysicalMachine) (vm_id : Int) : PhysicalMachine :=
  { pm with vm_set := if vm_id ∈ pm.vm_set then pm.vm_set else pm.vm_set ++ [vm_id] }

/-- Modelled from the spec: `remove_vm` removes a VM id from `vm_set`. -/
def PhysicalMachine.remove_vm (pm : PhysicalMachine) (vm_id : Int) : PhysicalMachine :=
  { pm with vm_set := pm.vm_set.erase vm_id }

/-- The event kinds registered by the engine (`events.py` is not under
`src/`; the two kinds used are named at lines 119-120 of the source). -/
inductive Events where
  | REQUIREMENTS
  | FINISHED
  deriving Repr, DecidableEq

/-- Payloads the handlers put into buffer events: `VmRequirementPayload`
(a VM descriptor and a remaining buffer time) and `VmFinishedPayload`
(a VM id). Modelled from the spec (§6) since `common.py` is not under
`src/`. -/
inductive EventPayload where
  | vmRequirement (vm_req : VirtualMachine) (buffer_time : Int)
  | vmFinished (vm_id : Int)
  deriving Repr, DecidableEq

/-- An event handed to the external event buffer.  `event_type := none`
records a `gen_*_event` call that omits the `event_type` argument
(the spec's dispatcher interface `generate(kind, tick, payload)` takes
the kind explicitly, §6). -/
structure EmittedEvent where
  tick : Int
  event_type : Option Events
  payload : EventPayload
  deriving Repr, DecidableEq

/-- One candidate record of the `valid_pm_list` built by
`_on_vm_required` (a dict with keys `id`, `cpu`, `mem`). -/
structure PmCandidate where
  id : Nat
  cpu : Int
  mem : Int
  deriving Repr, DecidableEq

/-- A pending-decision event (`DecisionPayload` attached as an immediate
sub-event of the requirement event). -/
structure DecisionEvent where
  tick : Int
  valid_pm : List PmCandidate
  vm_info : VirtualMachine
  buffer_time : Int
  deriving Repr, DecidableEq

/-- Modelled from the spec (§6): an `Action` names the VM, an
assign/postpone verdict, a target PM id when assigning, and the
remaining buffer time when postponing. -/
structure Action where
  vm_req : VirtualMachine
  assign : Bool
  pm_id : Int
  buffer_time : Int
  deriving Repr, DecidableEq

/-- The mutable state of `DataCenterBusinessEngine` relevant to the
handlers: the PM list, the live-VM table `self._vm` (a Python dict,
embedded as a key-ordered association list), the pending-decision id,
the metric counters and the configured `delay_duration`. -/
structure EngineState where
  machines : List PhysicalMachine
  vm_table : List (Int × VirtualMachine)
  pending_action_vm_id : Int
  successful_requirements : Nat
  failed_requirements : Nat
  latency_due_to_resource : Int
  latency_due_to_agent : Int
  delay_duration : Int
  deriving Repr, DecidableEq

/-- The engine state right after `__init__`: `pm_amount` machines of
identical capacity with empty reservations, an empty VM table, no
pending decision (`-1`) and zeroed metrics. -/
def initState (delay_duration : Int) (pm_amount : Nat) (cap_cpu cap_mem : Int) : EngineState :=
  { machines := (List.range pm_amount).map (fun i =>
      { id := i, cap_cpu := cap_cpu, cap_mem := cap_mem,
        req_cpu := 0, req_mem := 0, util_cpu := 0, vm_set := [] }),
    vm_table := [],
    pending_action_vm_id := -1,
    successful_requirements := 0,
    failed_requirements := 0,
    latency_due_to_resource := 0,
    latency_due_to_agent := 0,
    delay_duration := delay_duration }

/-- Python dict lookup `self._vm[vm_id]` on the association list. -/
def tblLookup : List (Int × VirtualMachine) → Int → Option VirtualMachine
  | [], _ => none
  | (k, v) :: t, k' => if k = k' then some v else tblLookup t k'

/-- Python dict write `self._vm[k] = v`: overwrite in place if the key
exists, else append (dicts preserve insertion order). -/
def tblInsert : List (Int × VirtualMachine) → Int → VirtualMachine → List (Int × VirtualMachine)
  | [], k, v => [(k, v)]
  | (k', v') :: t, k, v => if k' = k then (k, v) :: t else (k', v') :: tblInsert t k v

/-- Python dict removal `self._vm.pop(k)`. -/
def tblErase : List (Int × VirtualMachine) → Int → List (Int × VirtualMachine)
  | [], _ => []
  | (k', v') :: t, k => if k' = k then t else (k', v') :: tblErase t k

/-- The candidate record built for one PM at lines 158-162 of the
source: its id and its free CPU / free memory. -/
def candidateRecord (pm : PhysicalMachine) : PmCandidate :=
  { id := pm.id, cpu := pm.cap_cpu - pm.req_cpu, mem := pm.cap_mem - pm.req_mem }

/-- `valid_pm_list` of `_on_vm_required` (lines 157-165): every PM with
`cap_cpu - req_cpu >= vm_req.req_cpu`, reported with free cpu and mem. -/
def valid_pm_list (machines : List PhysicalMachine) (vm_req : VirtualMachine) :
    List PmCandidate :=
  (machines.filter (fun pm => pm.cap_cpu - pm.req_cpu ≥ vm_req.req_cpu)).map candidateRecord

/-- Output of `_on_vm_required`: the new engine state, the events
inserted into the buffer, and the decision events attached as immediate
sub-events of the requirement event. -/
structure RequiredOut where
  state : EngineState
  emitted : List EmittedEvent
  decisions : List DecisionEvent
  deriving Repr, DecidableEq

/-- `_on_vm_required` (lines 147-193).  Candidates present: attach a
pending-decision event at the requirement's tick and record the pending
VM id.  No candidates and buffer time positive: postpone, charging
`delay_duration` to `latency_due_to_resource` and re-emitting the
requirement (typed `Events.REQUIREMENTS`) with the decremented budget.
No candidates and buffer exhausted: count a failed requirement. -/
def on_vm_required (s : EngineState) (evt_tick : Int) (vm_req : VirtualMachine)
    (buffer_time : Int) : RequiredOut :=
  let valid := valid_pm_list s.machines vm_req
  if valid.length > 0 then
    { state := { s with pending_action_vm_id := vm_req.id },
      emitted := [],
      decisions := [{ tick := evt_tick, valid_pm := valid,
                      vm_info := vm_req, buffer_time := buffer_time }] }
  else if buffer_time > 0 then
    { state := { s with latency_due_to_resource :=
                  s.latency_due_to_resource + s.delay_duration },
      emitted := [{ tick := evt_tick + s.delay_duration,
                    event_type := some Events.REQUIREMENTS,
                    payload := EventPayload.vmRequirement vm_req
                      (buffer_time - s.delay_duration) }],
      decisions := [] }
  else
    { state := { s with failed_requirements := s.failed_requirements + 1 },
      emitted := [],
      decisions := [] }

/-- `_on_vm_finished` (lines 195-216).  `self._vm[vm_id]` raises
`KeyError` for an id not in the live table, and `self._machines[pm_id]`
raises `IndexError` for an unresolvable index (both `none`).  Otherwise:
release the VM's reservation on its hosting PM, undo its capacity-
weighted utilization contribution, drop it from `vm_set` and from the
live table, and count a successful requirement. -/
def on_vm_finished (s : EngineState) (vm_id : Int) : Option EngineState :=
  match tblLookup s.vm_table vm_id with
  | none => none
  | some virtual_machine =>
    match pyIdx s.machines.length virtual_machine.pm_id with
    | none => none
    | some i =>
      let pm := s.machines.getD i default
      let pm' := PhysicalMachine.remove_vm
        { pm with
          req_cpu := pm.req_cpu - virtual_machine.req_cpu,
          req_mem := pm.req_mem - virtual_machine.req_mem,
          util_cpu := ((pm.cap_cpu : ℚ) * pm.util_cpu
            - (virtual_machine.req_cpu : ℚ) * virtual_machine.util_cpu) / (pm.cap_cpu : ℚ) }
        vm_id
      some { s with
             machines := s.machines.set i pm',
             vm_table := tblErase s.vm_table vm_id,
             successful_requirements := s.successful_requirements + 1 }

/-- Output of the body of `_on_action_received` after the pending-id
check: the new state (`none` when the target-PM indexing raises and the
run dies) and the events inserted into the buffer. -/
structure ActionCoreOut where
  state : Option EngineState
  emitted : List EmittedEvent
  deriving Repr, DecidableEq

/-- Lines 228-271 of `_on_action_received`, the part after the
pending-id check.  Assign: stamp the VM (`pm_id`, `start_tick`,
`end_tick`, recomputed `util_cpu`), store it in the live table, insert a
finish event at `cur_tick + lifetime` (the `gen_atom_event` call passes
no `event_type`), then book the reservation on the target PM and blend
its utilization.  The finish event is inserted before the PM indexing,
so it is emitted even when that indexing raises.  Postpone: with budget
left, charge `delay_duration` to `latency_due_to_agent` and re-emit the
requirement payload with the decremented budget — the `gen_cascade_event`
call at line 263 passes no `event_type`; with the budget exhausted,
count a failed requirement. -/
def applyAssignOrPostpone (s : EngineState) (cur_tick : Int) (action : Action) :
    ActionCoreOut :=
  let vm := action.vm_req
  if action.assign then
    let pm_id := action.pm_id
    let lifetime := vm.lifetime
    let vm1 := { vm with pm_id := pm_id, start_tick := cur_tick,
                         end_tick := cur_tick + lifetime }
    let vm2 := { vm1 with util_cpu := vm1.get_util cur_tick }
    let tbl := tblInsert s.vm_table vm.id vm2
    let ev : EmittedEvent := { tick := cur_tick + lifetime, event_type := none,
                               payload := EventPayload.vmFinished vm.id }
    match pyIdx s.machines.length pm_id with
    | none => { state := none, emitted := [ev] }
    | some i =>
      let pm := s.machines.getD i default
      let pm' := { PhysicalMachine.add_vm pm vm.id with
                   req_cpu := pm.req_cpu + vm.req_cpu,
                   req_mem := pm.req_mem + vm.req_mem,
                   util_cpu := ((pm.cap_cpu : ℚ) * pm.util_cpu
                     + (vm.req_cpu : ℚ) * vm2.util_cpu) / (pm.cap_cpu : ℚ) }
      { state := some { s with machines := s.machines.set i pm', vm_table := tbl },
        emitted := [ev] }
  else
    if action.buffer_time > 0 then
      { state := some { s with latency_due_to_agent :=
                          s.latency_due_to_agent + s.delay_duration },
        emitted := [{ tick := cur_tick + s.delay_duration,
                      event_type := none,
                      payload := EventPayload.vmRequirement vm
                        (action.buffer_time - s.delay_duration) }] }
    else
      { state := some { s with failed_requirements := s.failed_requirements + 1 },
        emitted := [] }

/-- Output of `_on_action_received`: whether the pending-id mismatch was
reported (the `print` at line 226) and the result of the body. -/
structure ActionOut where
  reported : Bool
  core : ActionCoreOut
  deriving Repr, DecidableEq

/-- `_on_action_received` (lines 218-271): report a pending-id mismatch,
then unconditionally run the assign/postpone body. -/
def on_action_received (s : EngineState) (cur_tick : Int) (action : Action) :
    ActionOut :=
  { reported := decide (action.vm_req.id ≠ s.pending_action_vm_id),
    core := applyAssignOrPostpone s cur_tick action }

/-- One handler invocation, as delivered by the external event buffer. -/
inductive Op where
  | required (evt_tick : Int) (vm_req : VirtualMachine) (buffer_time : Int)
  | takeAction (cur_tick : Int) (action : Action)
  | finished (vm_id : Int)
  deriving Repr, DecidableEq

/-- The state transition of one handler invocation; `none` when the
handler raises and the run dies. -/
def applyOp (s : EngineState) (op : Op) : Option EngineState :=
  match op with
  | .required t vm b => some (on_vm_required s t vm b).state
  | .takeAction t a => (applyAssignOrPostpone s t a).state
  | .finished id => on_vm_finished s id

/-- Multi-step reachability by handler invocations whose ops satisfy `P`
at the state where they run. -/
inductive RunFrom (P : EngineState → Op → Prop) : EngineState → EngineState → Prop where
  | refl (s : EngineState) : RunFrom P s s
  | step {s₀ s s' : EngineState} {op : Op} :
      RunFrom P s₀ s → P s op → applyOp s op = some s' → RunFrom P s₀ s'

/-- No restriction on the ops of a run: any payloads the external event
buffer and agent may deliver. -/
def AnyOp : EngineState → Op → Prop := fun _ _ => True



/-! ### Auxiliary lemmas about Python-style indexing and the VM table -/

theorem pyIdx_lt {n : Nat} {i : Int} {j : Nat} (h : pyIdx n i = some j) : j < n := by
  unfold pyIdx at h
  split_ifs at h <;> simp_all <;> omega

theorem getD_set_self {α : Type} [Inhabited α] {l : List α} {i : Nat}
    (h : i < l.length) (a : α) : (l.set i a).getD i default = a := by
  rw [List.getD_eq_getElem?_getD]
  simp [List.getElem?_set, h]

theorem getD_set_ne {α : Type} [Inhabited α] {l : List α} {i j : Nat}
    (h : i ≠ j) (a : α) : (l.set i a).getD j default = l.getD j default := by
  rw [List.getD_eq_getElem?_getD, List.getElem?_set_ne h, ← List.getD_eq_getElem?_getD]

theorem getD_mem {α : Type} [Inhabited α] {l : List α} {i : Nat}
    (h : i < l.length) : l.getD i default ∈ l := by
  rw [List.getD_eq_getElem?_getD, List.getElem?_eq_getElem h]
  exact List.getElem_mem h

theorem tblLookup_mem {l : List (Int × VirtualMachine)} {k : Int} {v : VirtualMachine}
    (h : tblLookup l k = some v) : (k, v) ∈ l := by
  induction l with
  | nil => simp [tblLookup] at h
  | cons e t ih =>
    obtain ⟨k', v'⟩ := e
    by_cases hk : k' = k
    · subst hk
      simp [tblLookup] at h
      simp [h]
    · simp [tblLookup, hk] at h
      exact List.mem_cons_of_mem _ (ih h)

theorem tblLookup_eq_none {l : List (Int × VirtualMachine)} {k : Int} :
    tblLookup l k = none ↔ k ∉ l.map Prod.fst := by
  induction l with
  | nil => simp [tblLookup]
  | cons e t ih =>
    obtain ⟨k', v'⟩ := e
    by_cases hk : k' = k
    · subst hk; simp [tblLookup]
    · simp [tblLookup, hk, ih, Ne.symm hk]

theorem tblLookup_tblInsert_self (l : List (Int × VirtualMachine)) (k : Int)
    (v : VirtualMachine) : tblLookup (tblInsert l k v) k = some v := by
  induction l with
  | nil => simp [tblInsert, tblLookup]
  | cons e t ih =>
    obtain ⟨k', v'⟩ := e
    by_cases hk : k' = k
    · subst hk; simp [tblInsert, tblLookup]
    · simp [tblInsert, tblLookup, hk, ih]

theorem tblInsert_of_fresh {l : List (Int × VirtualMachine)} {k : Int}
    (v : VirtualMachine) (h : tblLookup l k = none) :
    tblInsert l k v = l ++ [(k, v)] := by
  induction l with
  | nil => simp [tblInsert]
  | cons e t ih =>
    obtain ⟨k', v'⟩ := e
    by_cases hk : k' = k
    · subst hk; simp [tblLookup] at h
    · simp [tblLookup, hk] at h
      simp [tblInsert, hk, ih h]

theorem mem_tblInsert {l : List (Int × VirtualMachine)} {k : Int}
    {v : VirtualMachine} {e : Int × VirtualMachine} (h : e ∈ tblInsert l k v) :
    e ∈ l ∨ e = (k, v) := by
  induction l with
  | nil => simpa [tblInsert] using h
  | cons hd t ih =>
    obtain ⟨k', v'⟩ := hd
    by_cases hk : k' = k
    · subst hk
      simp [tblInsert] at h
      rcases h with h | h
      · right; simp [h]
      · left; exact List.mem_cons_of_mem _ h
    · simp [tblInsert, hk] at h
      rcases h with h | h
      · left; simp [h]
      · rcases ih h with h' | h'
        · left; exact List.mem_cons_of_mem _ h'
        · right; exact h'

theorem tblErase_sublist (l : List (Int × VirtualMachine)) (k : Int) :
    List.Sublist (tblErase l k) l := by
  induction l with
  | nil => simp [tblErase]
  | cons e t ih =>
    obtain ⟨k', v'⟩ := e
    by_cases hk : k' = k
    · simp only [tblErase, hk, if_pos rfl]
      exact List.sublist_cons_self _ _
    · simp only [tblErase, hk, if_neg hk]
      exact ih.cons₂ (k', v')

theorem perm_tblErase {l : List (Int × VirtualMachine)} {k : Int} {v : VirtualMachine}
    (h : tblLookup l k = some v) : List.Perm l ((k, v) :: tblErase l k) := by
  induction l with
  | nil => simp [tblLookup] at h
  | cons e t ih =>
    obtain ⟨k', v'⟩ := e
    by_cases hk : k' = k
    · subst hk
      simp [tblLookup] at h
      subst h
      simp [tblErase]
    · simp [tblLookup, hk] at h
      have h1 : List.Perm ((k', v') :: t) ((k', v') :: (k, v) :: tblErase t k) :=
        List.Perm.cons _ (ih h)
      have h2 : tblErase ((k', v') :: t) k = (k', v') :: tblErase t k := by
        simp [tblErase, hk]
      rw [h2]
      exact h1.trans (List.Perm.swap _ _ _)

theorem tblLookup_tblErase_self {l : List (Int × VirtualMachine)} {k : Int}
    (h : (l.map Prod.fst).Nodup) : tblLookup (tblErase l k) k = none := by
  induction l with
  | nil => simp [tblErase, tblLookup]
  | cons e t ih =>
    obtain ⟨k', v'⟩ := e
    simp only [List.map_cons, List.nodup_cons] at h
    by_cases hk : k' = k
    · subst hk
      simp only [tblErase, if_pos rfl]
      exact tblLookup_eq_none.mpr h.1
    · simp only [tblErase, if_neg hk, tblLookup, if_neg hk]
      exact ih h.2

theorem mem_tblErase_iff {l : List (Int × VirtualMachine)} {k : Int} {v : VirtualMachine}
    (hn : (l.map Prod.fst).Nodup) (h : tblLookup l k = some v)
    (e : Int × VirtualMachine) : e ∈ tblErase l k ↔ e ∈ l ∧ e ≠ (k, v) := by
  induction l with
  | nil => simp [tblLookup] at h
  | cons hd t ih =>
    obtain ⟨k', v'⟩ := hd
    simp only [List.map_cons, List.nodup_cons] at hn
    by_cases hk : k' = k
    · subst hk
      simp [tblLookup] at h
      subst h
      simp only [tblErase, if_pos rfl]
      constructor
      · intro he
        refine ⟨List.mem_cons_of_mem _ he, ?_⟩
        rintro rfl
        exact hn.1 (List.mem_map_of_mem Prod.fst he)
      · rintro ⟨he, hne⟩
        rcases List.mem_cons.mp he with rfl | he'
        · exact absurd rfl hne
        · exact he'
    · simp only [tblLookup, if_neg hk] at h
      simp only [tblErase, if_neg hk]
      constructor
      · intro he
        rcases List.mem_cons.mp he with rfl | he'
        · exact ⟨List.mem_cons_self _ _, by simp [hk]⟩
        · have := (ih hn.2 h).mp he'
          exact ⟨List.mem_cons_of_mem _ this.1, this.2⟩
      · rintro ⟨he, hne⟩
        rcases List.mem_cons.mp he with rfl | he'
        · exact List.mem_cons_self _ _
        · exact List.mem_cons_of_mem _ ((ih hn.2 h).mpr ⟨he', hne⟩)

theorem keys_nodup_val_eq {l : List (Int × VirtualMachine)} {k : Int}
    {a b : VirtualMachine} (hn : (l.map Prod.fst).Nodup)
    (ha : (k, a) ∈ l) (hb : (k, b) ∈ l) : a = b := by
  induction l with
  | nil => simp at ha
  | cons hd t ih =>
    obtain ⟨k', v'⟩ := hd
    simp only [List.map_cons, List.nodup_cons] at hn
    rcases List.mem_cons.mp ha with h1 | h1 <;> rcases List.mem_cons.mp hb with h2 | h2
    · rw [Prod.mk.injEq] at h1 h2
      rw [h1.2, h2.2]
    · exfalso
      rw [Prod.mk.injEq] at h1
      obtain ⟨rfl, rfl⟩ := h1
      exact hn.1 (List.mem_map_of_mem Prod.fst h2)
    · exfalso
      rw [Prod.mk.injEq] at h2
      obtain ⟨rfl, rfl⟩ := h2
      exact hn.1 (List.mem_map_of_mem Prod.fst h1)
    · exact ih hn.2 h1 h2

theorem sum_map_set {α : Type} [Inhabited α] (f : α → Int) :
    ∀ (l : List α) (i : Nat), i < l.length → ∀ (a : α),
      ((l.set i a).map f).sum = (l.map f).sum + f a - f (l.getD i default)
  | [], i, h, a => by simp at h
  | x :: t, 0, _, a => by
    simp [List.getD]
    ring
  | x :: t, i + 1, h, a => by
    simp only [List.length_cons, Nat.add_lt_add_iff_right] at h
    simp only [List.set, List.map_cons, List.sum_cons, List.getD_cons_succ]
    rw [sum_map_set f t i h a]
    ring


/-! ### Concrete fixtures used by witnesses and counterexamples -/

/-- A PM with ample CPU but little memory. -/
def lowMemPm : PhysicalMachine :=
  { id := 0, cap_cpu := 100, cap_mem := 10,
    req_cpu := 0, req_mem := 0, util_cpu := 0, vm_set := [] }

/-- A PM with no free CPU at all. -/
def fullPm : PhysicalMachine :=
  { id := 0, cap_cpu := 100, cap_mem := 100,
    req_cpu := 100, req_mem := 100, util_cpu := 70, vm_set := [] }

/-- A VM request asking for half the CPU of a standard PM but more
memory than `lowMemPm` has. -/
def demoVm : VirtualMachine :=
  { id := 7, req_cpu := 50, req_mem := 20, lifetime := 10,
    pm_id := -1, start_tick := 0, end_tick := 0, util_cpu := 0,
    util_series := [30, 40] }

/-- A fresh engine with one standard PM and `delay_duration = 5`. -/
def demoState : EngineState := initState 5 1 100 100

/-- The engine of `demoState` with no free CPU anywhere. -/
def fullState : EngineState := { demoState with machines := [fullPm] }

/-! ### C2: candidate search -/

/-- C2: the candidate set built by `_on_vm_required` contains exactly
the records of the PMs with `cap_cpu - req_cpu >= req_cpu(vm)`; the free
memory is reported in each record but never filtered on, so a PM whose
free memory is smaller than the VM requirement (here `lowMemPm` against
`demoVm`) is still a candidate. -/
theorem candidate_set_characterization :
    (∀ (machines : List PhysicalMachine) (vm : VirtualMachine) (pm : PhysicalMachine),
        pm ∈ machines → pm.cap_cpu - pm.req_cpu ≥ vm.req_cpu →
        candidateRecord pm ∈ valid_pm_list machines vm) ∧
    (∀ (machines : List PhysicalMachine) (vm : VirtualMachine) (c : PmCandidate),
        c ∈ valid_pm_list machines vm →
        ∃ pm, pm ∈ machines ∧ pm.cap_cpu - pm.req_cpu ≥ vm.req_cpu ∧
          c = candidateRecord pm) ∧
    (lowMemPm.cap_mem - lowMemPm.req_mem < demoVm.req_mem ∧
      candidateRecord lowMemPm ∈ valid_pm_list [lowMemPm] demoVm) := by
  refine ⟨?_, ?_, ?_⟩
  · intro machines vm pm hmem hcond
    exact List.mem_map_of_mem candidateRecord
      (List.mem_filter.mpr ⟨hmem, by simpa using hcond⟩)
  · intro machines vm c hc
    obtain ⟨pm, hpm, rfl⟩ := List.mem_map.mp hc
    obtain ⟨hmem, hcond⟩ := List.mem_filter.mp hpm
    exact ⟨pm, hmem, by simpa using hcond, rfl⟩
  · decide

/-- Closed instance of C2 at a concrete input: `lowMemPm` is a candidate
for `demoVm` although its free memory is insufficient. -/
theorem candidate_set_characterization_witness :
    candidateRecord lowMemPm ∈ valid_pm_list [lowMemPm] demoVm :=
  candidate_set_characterization.1 [lowMemPm] demoVm lowMemPm (by decide) (by decide)

/-! ### C3: postponement and failure on empty candidate set -/

/-- C3: with an empty candidate set, `_on_vm_required` postpones when
the buffer is positive (buffer decremented by `delay_duration`,
`latency_due_to_resource` charged `delay_duration`, the requirement
re-emitted at `tick + delay_duration` with the same VM descriptor) and
otherwise counts one failed requirement and emits nothing. -/
theorem required_no_candidate_spec (s : EngineState) (t : Int) (vm : VirtualMachine)
    (B : Int) (h : valid_pm_list s.machines vm = []) :
    (0 < B →
      on_vm_required s t vm B =
        { state := { s with latency_due_to_resource :=
                      s.latency_due_to_resource + s.delay_duration },
          emitted := [{ tick := t + s.delay_duration,
                        event_type := some Events.REQUIREMENTS,
                        payload := EventPayload.vmRequirement vm (B - s.delay_duration) }],
          decisions := [] }) ∧
    (B ≤ 0 →
      on_vm_required s t vm B =
        { state := { s with failed_requirements := s.failed_requirements + 1 },
          emitted := [], decisions := [] }) := by
  constructor
  · intro hB
    simp [on_vm_required, h, hB]
  · intro hB
    have hB' : ¬ (B > 0) := by omega
    simp [on_vm_required, h, hB']

/-- Closed instance of C3: against the fully loaded engine, a request
with buffer 3 is postponed to tick 5 with buffer decreased past zero,
and a request with buffer 0 is counted as failed. -/
theorem required_no_candidate_spec_witness :
    (on_vm_required fullState 0 demoVm 3 =
      { state := { fullState with latency_due_to_resource := 5 },
        emitted := [{ tick := 5, event_type := some Events.REQUIREMENTS,
                      payload := EventPayload.vmRequirement demoVm (-2) }],
        decisions := [] }) ∧
    (on_vm_required fullState 0 demoVm 0 =
      { state := { fullState with failed_requirements := 1 },
        emitted := [], decisions := [] }) := by
  constructor
  · have h := (required_no_candidate_spec fullState 0 demoVm 3 (by decide)).1 (by decide)
    rw [h]
    decide
  · have h := (required_no_candidate_spec fullState 0 demoVm 0 (by decide)).2 (by decide)
    rw [h]
    decide

/-! ### C4: the postpone branch of the action handler -/

/-- An action postponing `demoVm` with buffer time 3. -/
def postponeAction : Action :=
  { vm_req := demoVm, assign := false, pm_id := 0, buffer_time := 3 }

/-- The demo engine with `demoVm` as the pending decision. -/
def pendingState : EngineState := { demoState with pending_action_vm_id := 7 }

/-- C4 (failing input): the postpone branch of `_on_action_received`
re-emits the requirement payload with the decremented budget at
`tick + delay_duration` and charges `latency_due_to_agent`, but the
`gen_cascade_event` call at line 263 passes no `event_type` (unlike the
requirement handler's own postpone path at line 184), so the re-emitted
event is not typed `Events.REQUIREMENTS` and is not delivered to the
requirement handler. -/
theorem postpone_action_event_untyped :
    (on_action_received pendingState 10 postponeAction).core.emitted =
      [{ tick := 15, event_type := none,
         payload := EventPayload.vmRequirement demoVm (-2) }] ∧
    (∀ e ∈ (on_action_received pendingState 10 postponeAction).core.emitted,
      e.event_type ≠ some Events.REQUIREMENTS) ∧
    (on_action_received pendingState 10 postponeAction).core.state =
      some { pendingState with latency_due_to_agent := 5 } := by
  decide


/-! ### C1: the assign branch of the action handler -/

theorem mem_add_vm_self (pm : PhysicalMachine) (vm_id : Int) :
    vm_id ∈ (pm.add_vm vm_id).vm_set := by
  unfold PhysicalMachine.add_vm
  by_cases h : vm_id ∈ pm.vm_set <;> simp [h]

/-- C1: on an assign action the handler stamps the VM (`pm_id`,
`start_tick = tick`, `end_tick = start_tick + lifetime`, `util_cpu`
recomputed from its curve at the current tick), stores it in the live
table, schedules a finish event at `end_tick`, and updates the target
PM: the VM id joins `vm_set`, `req_cpu`/`req_mem` grow by the VM's
requirement, and `util_cpu` becomes
`(cap_cpu * old_util + vm_req_cpu * vm_util) / cap_cpu`. -/
theorem assign_branch_spec (s : EngineState) (t : Int) (a : Action) (i : Nat)
    (ha : a.assign = true) (hi : pyIdx s.machines.length a.pm_id = some i) :
    ∃ s' vmNew pmNew,
      (on_action_received s t a).core.state = some s' ∧
      tblLookup s'.vm_table a.vm_req.id = some vmNew ∧
      vmNew.pm_id = a.pm_id ∧
      vmNew.start_tick = t ∧
      vmNew.end_tick = t + a.vm_req.lifetime ∧
      vmNew.util_cpu = vmNew.get_util t ∧
      (on_action_received s t a).core.emitted =
        [{ tick := t + a.vm_req.lifetime, event_type := none,
           payload := EventPayload.vmFinished a.vm_req.id }] ∧
      s'.machines = s.machines.set i pmNew ∧
      a.vm_req.id ∈ pmNew.vm_set ∧
      pmNew.req_cpu = (s.machines.getD i default).req_cpu + a.vm_req.req_cpu ∧
      pmNew.req_mem = (s.machines.getD i default).req_mem + a.vm_req.req_mem ∧
      pmNew.util_cpu = (((s.machines.getD i default).cap_cpu : ℚ)
          * (s.machines.getD i default).util_cpu
          + (a.vm_req.req_cpu : ℚ) * vmNew.util_cpu)
          / ((s.machines.getD i default).cap_cpu : ℚ) := by
  simp only [on_action_received, applyAssignOrPostpone, ha, if_true, hi]
  exact ⟨_, _, _, rfl, tblLookup_tblInsert_self _ _ _, rfl, rfl, rfl, rfl, trivial, rfl,
    mem_add_vm_self _ _, rfl, rfl, rfl⟩

/-- An agent action assigning `demoVm` to PM 0 of `pendingState`. -/
def assignAction : Action :=
  { vm_req := demoVm, assign := true, pm_id := 0, buffer_time := 0 }

/-- Closed instance of C1: assigning `demoVm` to PM 0 of the fresh
one-PM engine at tick 0. -/
theorem assign_branch_spec_witness :
    ∃ s' vmNew pmNew,
      (on_action_received pendingState 0 assignAction).core.state = some s' ∧
      tblLookup s'.vm_table assignAction.vm_req.id = some vmNew ∧
      vmNew.pm_id = assignAction.pm_id ∧
      vmNew.start_tick = 0 ∧
      vmNew.end_tick = 0 + assignAction.vm_req.lifetime ∧
      vmNew.util_cpu = vmNew.get_util 0 ∧
      (on_action_received pendingState 0 assignAction).core.emitted =
        [{ tick := 0 + assignAction.vm_req.lifetime, event_type := none,
           payload := EventPayload.vmFinished assignAction.vm_req.id }] ∧
      s'.machines = pendingState.machines.set 0 pmNew ∧
      assignAction.vm_req.id ∈ pmNew.vm_set ∧
      pmNew.req_cpu = (pendingState.machines.getD 0 default).req_cpu
        + assignAction.vm_req.req_cpu ∧
      pmNew.req_mem = (pendingState.machines.getD 0 default).req_mem
        + assignAction.vm_req.req_mem ∧
      pmNew.util_cpu = (((pendingState.machines.getD 0 default).cap_cpu : ℚ)
          * (pendingState.machines.getD 0 default).util_cpu
          + (assignAction.vm_req.req_cpu : ℚ) * vmNew.util_cpu)
          / ((pendingState.machines.getD 0 default).cap_cpu : ℚ) :=
  assign_branch_spec pendingState 0 assignAction 0 rfl (by decide)

/-! ### C5: the finish handler -/

/-- C5: delivering a finish event for a live VM releases its
`req_cpu`/`req_mem` on its hosting PM, undoes its utilization
contribution (`(cap_cpu * old_util - vm_req_cpu * vm_util) / cap_cpu`),
removes its id from the PM's `vm_set`, removes it from the live table,
and counts one successful requirement. -/
theorem finish_branch_spec (s : EngineState) (vm_id : Int) (vm : VirtualMachine)
    (i : Nat) (hl : tblLookup s.vm_table vm_id = some vm)
    (hi : pyIdx s.machines.length vm.pm_id = some i)
    (hk : (s.vm_table.map Prod.fst).Nodup) :
    ∃ s' pmNew,
      on_vm_finished s vm_id = some s' ∧
      s'.machines = s.machines.set i pmNew ∧
      pmNew.req_cpu = (s.machines.getD i default).req_cpu - vm.req_cpu ∧
      pmNew.req_mem = (s.machines.getD i default).req_mem - vm.req_mem ∧
      pmNew.util_cpu = (((s.machines.getD i default).cap_cpu : ℚ)
          * (s.machines.getD i default).util_cpu
          - (vm.req_cpu : ℚ) * vm.util_cpu)
          / ((s.machines.getD i default).cap_cpu : ℚ) ∧
      pmNew.vm_set = (s.machines.getD i default).vm_set.erase vm_id ∧
      tblLookup s'.vm_table vm_id = none ∧
      s'.successful_requirements = s.successful_requirements + 1 := by
  simp only [on_vm_finished, hl, hi]
  exact ⟨_, _, rfl, rfl, rfl, rfl, rfl, rfl, tblLookup_tblErase_self hk, rfl⟩

/-- A VM of `demoVm`'s shape already assigned to and hosted on PM 0. -/
def hostedVm : VirtualMachine :=
  { id := 7, req_cpu := 50, req_mem := 20, lifetime := 10,
    pm_id := 0, start_tick := 0, end_tick := 10, util_cpu := 30,
    util_series := [30, 40] }

/-- PM 0 of `hostedState`, carrying `hostedVm`'s reservation. -/
def hostPm : PhysicalMachine :=
  { id := 0, cap_cpu := 100, cap_mem := 100,
    req_cpu := 50, req_mem := 20, util_cpu := 15, vm_set := [7] }

/-- The engine with `hostedVm` live on `hostPm`. -/
def hostedState : EngineState :=
  { demoState with machines := [hostPm], vm_table := [(7, hostedVm)] }

/-- Closed instance of C5: finishing `hostedVm` on `hostedState`. -/
theorem finish_branch_spec_witness :
    ∃ s' pmNew,
      on_vm_finished hostedState 7 = some s' ∧
      s'.machines = hostedState.machines.set 0 pmNew ∧
      pmNew.req_cpu = (hostedState.machines.getD 0 default).req_cpu - hostedVm.req_cpu ∧
      pmNew.req_mem = (hostedState.machines.getD 0 default).req_mem - hostedVm.req_mem ∧
      pmNew.util_cpu = (((hostedState.machines.getD 0 default).cap_cpu : ℚ)
          * (hostedState.machines.getD 0 default).util_cpu
          - (hostedVm.req_cpu : ℚ) * hostedVm.util_cpu)
          / ((hostedState.machines.getD 0 default).cap_cpu : ℚ) ∧
      pmNew.vm_set = (hostedState.machines.getD 0 default).vm_set.erase 7 ∧
      tblLookup s'.vm_table 7 = none ∧
      s'.successful_requirements = hostedState.successful_requirements + 1 :=
  finish_branch_spec hostedState 7 hostedVm 0 rfl (by decide) (by decide)

/-! ### C8: a mismatched pending-decision id -/

/-- Normalize the pending-decision id, to compare engine states up to
the one field the mismatch check reads. -/
def scrubPending (st : EngineState) : EngineState :=
  { st with pending_action_vm_id := 0 }

/-- C8: an action whose VM id differs from the pending-decision id is
reported (and the same action under a matching pending id is not), yet
the body runs identically: the emitted events and the resulting state
(up to the untouched pending-id field) are those of the matched case, so
the action is applied rather than rejected. -/
theorem mismatched_action_spec (s : EngineState) (t : Int) (a : Action)
    (h : a.vm_req.id ≠ s.pending_action_vm_id) :
    (on_action_received s t a).reported = true ∧
    (on_action_received { s with pending_action_vm_id := a.vm_req.id } t a).reported
      = false ∧
    (on_action_received s t a).core.emitted =
      (on_action_received { s with pending_action_vm_id := a.vm_req.id } t a).core.emitted ∧
    Option.map scrubPending (on_action_received s t a).core.state =
      Option.map scrubPending
        (on_action_received { s with pending_action_vm_id := a.vm_req.id } t a).core.state := by
  refine ⟨by simp [on_action_received, h], by simp [on_action_received], ?_⟩
  cases ha : a.assign with
  | false =>
    by_cases hb : a.buffer_time > 0 <;>
      simp [on_action_received, applyAssignOrPostpone, ha, hb, scrubPending]
  | true =>
    cases hp : pyIdx s.machines.length a.pm_id with
    | none => simp [on_action_received, applyAssignOrPostpone, ha, hp, scrubPending]
    | some i => simp [on_action_received, applyAssignOrPostpone, ha, hp, scrubPending]

/-- Closed instance of C8: `postponeAction` (VM id 7) sent to the fresh
engine whose pending id is still `-1`. -/
theorem mismatched_action_spec_witness :
    (on_action_received demoState 10 postponeAction).reported = true ∧
    (on_action_received { demoState with pending_action_vm_id := postponeAction.vm_req.id }
        10 postponeAction).reported = false ∧
    (on_action_received demoState 10 postponeAction).core.emitted =
      (on_action_received { demoState with pending_action_vm_id := postponeAction.vm_req.id }
        10 postponeAction).core.emitted ∧
    Option.map scrubPending (on_action_received demoState 10 postponeAction).core.state =
      Option.map scrubPending
        (on_action_received { demoState with pending_action_vm_id := postponeAction.vm_req.id }
          10 postponeAction).core.state :=
  mismatched_action_spec demoState 10 postponeAction (by decide)

/-! ### C9: finish is applied once; redelivery is rejected -/

/-- C9: the first delivery of a finish event for a live VM hosted (per
`vm_set`) only on PM `i` removes the id from that one PM's `vm_set`
(every other PM is untouched), removes the VM from the live table, and
counts one success; redelivering the same finish event then fails the
table lookup and is rejected with no state produced, so nothing is
mutated again. -/
theorem finish_idempotent_release (s : EngineState) (vm_id : Int)
    (vm : VirtualMachine) (i : Nat)
    (hl : tblLookup s.vm_table vm_id = some vm)
    (hi : pyIdx s.machines.length vm.pm_id = some i)
    (hk : (s.vm_table.map Prod.fst).Nodup)
    (hset : (s.machines.getD i default).vm_set.Nodup) :
    ∃ s',
      on_vm_finished s vm_id = some s' ∧
      vm_id ∉ (s'.machines.getD i default).vm_set ∧
      (∀ j, j ≠ i → s'.machines.getD j default = s.machines.getD j default) ∧
      tblLookup s'.vm_table vm_id = none ∧
      s'.successful_requirements = s.successful_requirements + 1 ∧
      on_vm_finished s' vm_id = none := by
  simp only [on_vm_finished, hl, hi]
  refine ⟨_, rfl, ?_, ?_, ?_, rfl, ?_⟩
  · have hlen : i < s.machines.length := pyIdx_lt hi
    rw [getD_set_self (by simpa using hlen)]
    intro hmem
    have := (List.Nodup.mem_erase_iff hset).mp hmem
    exact this.1 rfl
  · intro j hj
    exact getD_set_ne (fun hji => hj hji.symm) _
  · exact tblLookup_tblErase_self hk
  · simp [on_vm_finished, tblLookup_tblErase_self hk]


/-! ### C6: the capacity invariant -/

/-- Every PM's reservations fit its capacities. -/
def CapInv (s : EngineState) : Prop :=
  ∀ pm ∈ s.machines, pm.req_cpu ≤ pm.cap_cpu ∧ pm.req_mem ≤ pm.cap_mem

/-- Every live VM's recorded requirements are nonnegative. -/
def VmReqNonneg (s : EngineState) : Prop :=
  ∀ e ∈ s.vm_table, 0 ≤ (e.2).req_cpu ∧ 0 ≤ (e.2).req_mem

/-- A capacity-respecting op: an assign action carries nonnegative
requirements and its target PM has room for them in both CPU and
memory.  Requirement and finish ops are unrestricted. -/
def CapGoodOp (s : EngineState) (op : Op) : Prop :=
  match op with
  | .takeAction _ a =>
      a.assign = true →
      0 ≤ a.vm_req.req_cpu ∧ 0 ≤ a.vm_req.req_mem ∧
      ∀ i, pyIdx s.machines.length a.pm_id = some i →
        (s.machines.getD i default).req_cpu + a.vm_req.req_cpu
          ≤ (s.machines.getD i default).cap_cpu ∧
        (s.machines.getD i default).req_mem + a.vm_req.req_mem
          ≤ (s.machines.getD i default).cap_mem
  | _ => True

theorem on_vm_required_frame (s : EngineState) (t : Int) (vm : VirtualMachine)
    (b : Int) : (on_vm_required s t vm b).state.machines = s.machines ∧
      (on_vm_required s t vm b).state.vm_table = s.vm_table := by
  refine ⟨?_, ?_⟩ <;> (simp only [on_vm_required]; split_ifs <;> rfl)

theorem capInv_step {s s' : EngineState} {op : Op}
    (hInv : CapInv s ∧ VmReqNonneg s) (hgood : CapGoodOp s op)
    (hstep : applyOp s op = some s') : CapInv s' ∧ VmReqNonneg s' := by
  cases op with
  | required t vm b =>
    simp only [applyOp, Option.some.injEq] at hstep
    subst hstep
    obtain ⟨h1, h2⟩ := on_vm_required_frame s t vm b
    exact ⟨fun pm hpm => hInv.1 pm (h1 ▸ hpm), fun e he => hInv.2 e (h2 ▸ he)⟩
  | takeAction t a =>
    cases ha : a.assign with
    | false =>
      by_cases hb : a.buffer_time > 0 <;>
        simp only [applyOp, applyAssignOrPostpone, ha, Bool.false_eq_true, if_false,
          if_pos, if_neg, hb, ite_true, ite_false, Option.some.injEq] at hstep <;>
        (try subst hstep) <;>
        exact ⟨fun pm hpm => hInv.1 pm hpm, fun e he => hInv.2 e he⟩
    | true =>
      cases hp : pyIdx s.machines.length a.pm_id with
      | none => simp [applyOp, applyAssignOrPostpone, ha, hp] at hstep
      | some i =>
        simp only [applyOp, applyAssignOrPostpone, ha, if_true, hp,
          Option.some.injEq] at hstep
        subst hstep
        obtain ⟨hc, hm, hbound⟩ := hgood ha
        constructor
        · intro pm hpm
          rcases List.mem_or_eq_of_mem_set hpm with hold | rfl
          · exact hInv.1 pm hold
          · exact ⟨(hbound i hp).1, (hbound i hp).2⟩
        · intro e he
          rcases mem_tblInsert he with hold | rfl
          · exact hInv.2 e hold
          · exact ⟨hc, hm⟩
  | finished vm_id =>
    cases hl : tblLookup s.vm_table vm_id with
    | none => simp [applyOp, on_vm_finished, hl] at hstep
    | some vm =>
      cases hp : pyIdx s.machines.length vm.pm_id with
      | none => simp [applyOp, on_vm_finished, hl, hp] at hstep
      | some i =>
        simp only [applyOp, on_vm_finished, hl, hp, Option.some.injEq] at hstep
        subst hstep
        have hvm : (vm_id, vm) ∈ s.vm_table := tblLookup_mem hl
        have hnn : 0 ≤ vm.req_cpu ∧ 0 ≤ vm.req_mem := hInv.2 (vm_id, vm) hvm
        have hpm : s.machines.getD i default ∈ s.machines := getD_mem (pyIdx_lt hp)
        have hcap := hInv.1 _ hpm
        constructor
        · intro pm hpmm
          rcases List.mem_or_eq_of_mem_set hpmm with hold | rfl
          · exact hInv.1 pm hold
          · exact ⟨by dsimp only [PhysicalMachine.remove_vm]; omega,
              by dsimp only [PhysicalMachine.remove_vm]; omega⟩
        · intro e he
          exact hInv.2 e ((tblErase_sublist s.vm_table vm_id).subset he)

theorem capInv_run {s₀ s : EngineState}
    (hinit : CapInv s₀ ∧ VmReqNonneg s₀)
    (h : RunFrom CapGoodOp s₀ s) : CapInv s ∧ VmReqNonneg s := by
  induction h with
  | refl => exact hinit
  | step hrun hgood hstep ih => exact capInv_step ih hgood hstep

/-- A VM whose memory requirement exceeds a whole PM, though its CPU
requirement passes the candidate filter. -/
def overMemVm : VirtualMachine :=
  { id := 9, req_cpu := 50, req_mem := 200, lifetime := 5,
    pm_id := -1, start_tick := 0, end_tick := 0, util_cpu := 0,
    util_series := [] }

/-- An assign action placing `overMemVm` on PM 0. -/
def overMemOp : Op :=
  Op.takeAction 0 { vm_req := overMemVm, assign := true, pm_id := 0, buffer_time := 0 }

/-- The state after assigning `overMemVm` to the fresh one-PM engine. -/
def overMemState : EngineState := (applyOp demoState overMemOp).getD demoState

/-- C6 counterexample: from the initial state, one assign handler
invocation (for a VM whose CPU fits the candidate filter but whose
memory does not fit the PM) reaches a state where a PM has
`req_mem > cap_mem`: the handlers never check capacity when applying an
action, and memory is never checked at all. -/
theorem capacity_invariant_counterexample :
    RunFrom AnyOp demoState overMemState ∧
    ¬ (∀ pm ∈ overMemState.machines,
        pm.req_cpu ≤ pm.cap_cpu ∧ pm.req_mem ≤ pm.cap_mem) := by
  constructor
  · have h : applyOp demoState overMemOp = some overMemState := rfl
    exact RunFrom.step (RunFrom.refl demoState) trivial h
  · decide

/-- C6 as amended: after any sequence of handler invocations from the
initial state in which every assign action carries nonnegative
requirements and targets a PM with enough free CPU and free memory for
them, every PM satisfies `req_cpu <= cap_cpu` and `req_mem <= cap_mem`. -/
theorem capacity_invariant_of_good_runs (d : Int) (n : Nat) (cc cm : Int)
    (hcc : 0 ≤ cc) (hcm : 0 ≤ cm) (s : EngineState)
    (h : RunFrom CapGoodOp (initState d n cc cm) s) :
    ∀ pm ∈ s.machines, pm.req_cpu ≤ pm.cap_cpu ∧ pm.req_mem ≤ pm.cap_mem := by
  refine (capInv_run ⟨?_, ?_⟩ h).1
  · intro pm hpm
    simp only [initState, List.mem_map, List.mem_range] at hpm
    obtain ⟨i, hi, rfl⟩ := hpm
    exact ⟨hcc, hcm⟩
  · intro e he
    simp [initState] at he

/-- Closed instance of C6 as amended: PM 0 of the fresh one-PM engine,
reached by the empty run, fits its capacities. -/
theorem capacity_invariant_of_good_runs_witness :
    (demoState.machines.getD 0 default).req_cpu
      ≤ (demoState.machines.getD 0 default).cap_cpu ∧
    (demoState.machines.getD 0 default).req_mem
      ≤ (demoState.machines.getD 0 default).cap_mem :=
  capacity_invariant_of_good_runs 5 1 100 100 (by decide) (by decide)
    demoState (RunFrom.refl demoState) (demoState.machines.getD 0 default) (by decide)


/-! ### C10: termination of the postponement chain -/

/-- `ceil(B / d)` for an integer buffer `B` (clamped at 0) and a delay
`d`. -/
def ceilDiv (B : Int) (d : Nat) : Nat := (B.toNat + d - 1) / d

/-- Drive one requirement through `_on_vm_required` repeatedly: each
postponement re-enters the handler at the re-emitted event's tick with
the re-emitted payload, until the handler stops re-emitting.  Returns
the final state and the number of re-emissions (`none` on fuel
exhaustion or when a decision event interrupts the chain). -/
def postponeDrive : Nat → EngineState → Int → VirtualMachine → Int →
    Option (EngineState × Nat)
  | 0, _, _, _, _ => none
  | fuel + 1, s, t, vm, B =>
    let out := on_vm_required s t vm B
    match out.emitted with
    | [] => if out.decisions.length > 0 then none else some (out.state, 0)
    | e :: _ =>
      match e.payload with
      | EventPayload.vmRequirement vm2 B2 =>
        (postponeDrive fuel out.state e.tick vm2 B2).map (fun r => (r.1, r.2 + 1))
      | _ => none

theorem ceilDiv_of_nonpos {B : Int} {d : Nat} (hB : ¬ B > 0) : ceilDiv B d = 0 := by
  unfold ceilDiv
  have h1 : B.toNat = 0 := by omega
  rw [h1]
  cases d with
  | zero => rfl
  | succ d => exact Nat.div_eq_of_lt (by omega)

theorem ceilDiv_rec {B d : Int} (hd : 0 < d) (hB : 0 < B) :
    ceilDiv B d.toNat = ceilDiv (B - d) d.toNat + 1 := by
  unfold ceilDiv
  have hdn : 0 < d.toNat := by omega
  by_cases hBd : B ≤ d
  · have h1 : (B - d).toNat = 0 := by omega
    rw [h1]
    have h2 : (B.toNat + d.toNat - 1) / d.toNat = 1 :=
      Nat.div_eq_of_lt_le (by omega) (by omega)
    have h3 : (0 + d.toNat - 1) / d.toNat = 0 := Nat.div_eq_of_lt (by omega)
    rw [h2, h3]
  · have h1 : (B - d).toNat = B.toNat - d.toNat := by omega
    rw [h1]
    have h2 : B.toNat + d.toNat - 1 = (B.toNat - d.toNat + d.toNat - 1) + d.toNat := by
      omega
    rw [h2, Nat.add_div_right _ hdn]

theorem ceilDiv_exceeds {B d : Int} (hB : 0 ≤ B) (hd : 0 < d)
    (hndvd : ¬ d ∣ B) : B < d * (ceilDiv B d.toNat : Int) := by
  have hdn : 0 < d.toNat := by omega
  have hb : (B.toNat : Int) = B := by omega
  have hdd : (d.toNat : Int) = d := by omega
  have hndvd' : ¬ d.toNat ∣ B.toNat := by
    intro hc
    exact hndvd (by rw [← hb, ← hdd]; exact_mod_cast hc)
  have hr : B.toNat % d.toNat ≠ 0 := fun h => hndvd' (Nat.dvd_of_mod_eq_zero h)
  have hmod := Nat.div_add_mod B.toNat d.toNat
  have hrlt : B.toNat % d.toNat < d.toNat := Nat.mod_lt _ hdn
  have hceil : ceilDiv B d.toNat = B.toNat / d.toNat + 1 := by
    unfold ceilDiv
    have h2 : B.toNat + d.toNat - 1 =
        d.toNat * (B.toNat / d.toNat) + (B.toNat % d.toNat + d.toNat - 1) := by omega
    rw [h2, Nat.mul_add_div hdn]
    have h3 : (B.toNat % d.toNat + d.toNat - 1) / d.toNat = 1 :=
      Nat.div_eq_of_lt_le (by omega) (by omega)
    rw [h3]
  have hlt : B.toNat < d.toNat * (B.toNat / d.toNat + 1) := by
    have hms : d.toNat * (B.toNat / d.toNat + 1)
        = d.toNat * (B.toNat / d.toNat) + d.toNat := by ring
    omega
  have hlt2 : (B.toNat : Int) < (d.toNat : Int) * ((B.toNat / d.toNat + 1 : Nat) : Int) := by
    exact_mod_cast hlt
  rw [hb, hdd] at hlt2
  rw [hceil]
  exact hlt2

theorem postponeDrive_fail (s : EngineState) (t : Int) (vm : VirtualMachine)
    (B : Int) (fuel : Nat) (hnc : valid_pm_list s.machines vm = [])
    (hB : ¬ B > 0) (hfuel : 0 < fuel) :
    postponeDrive fuel s t vm B =
      some ({ s with failed_requirements := s.failed_requirements + 1 }, 0) := by
  cases fuel with
  | zero => exact absurd hfuel (lt_irrefl 0)
  | succ f => simp [postponeDrive, on_vm_required, hnc, hB]

theorem postponeDrive_postpone (s : EngineState) (t : Int) (vm : VirtualMachine)
    (B : Int) (f : Nat) (hnc : valid_pm_list s.machines vm = []) (hB : B > 0) :
    postponeDrive (f + 1) s t vm B =
      (postponeDrive f
        { s with latency_due_to_resource :=
            s.latency_due_to_resource + s.delay_duration }
        (t + s.delay_duration) vm (B - s.delay_duration)).map
        (fun r => (r.1, r.2 + 1)) := by
  simp [postponeDrive, on_vm_required, hnc, hB]

theorem postpone_chain_aux :
    ∀ (N : Nat) (s : EngineState) (t B : Int) (vm : VirtualMachine) (fuel : Nat),
    B.toNat ≤ N →
    valid_pm_list s.machines vm = [] →
    0 < s.delay_duration →
    ceilDiv B s.delay_duration.toNat < fuel →
    ∃ s', postponeDrive fuel s t vm B =
        some (s', ceilDiv B s.delay_duration.toNat) ∧
      s'.failed_requirements = s.failed_requirements + 1 ∧
      s'.latency_due_to_resource = s.latency_due_to_resource
        + s.delay_duration * (ceilDiv B s.delay_duration.toNat : Int) := by
  intro N
  induction N with
  | zero =>
    intro s t B vm fuel hN hnc hd hfuel
    have hB : ¬ B > 0 := by omega
    rw [ceilDiv_of_nonpos hB] at hfuel ⊢
    refine ⟨_, postponeDrive_fail s t vm B fuel hnc hB hfuel, rfl, by simp⟩
  | succ N ih =>
    intro s t B vm fuel hN hnc hd hfuel
    by_cases hB : B > 0
    · have hrec := ceilDiv_rec hd hB
      cases fuel with
      | zero => exact absurd hfuel (by omega)
      | succ f =>
        have hstep := postponeDrive_postpone s t vm B f hnc hB
        have hN' : (B - s.delay_duration).toNat ≤ N := by omega
        have hnc' : valid_pm_list
            ({ s with latency_due_to_resource :=
              s.latency_due_to_resource + s.delay_duration } : EngineState).machines vm
            = [] := hnc
        have hfuel' : ceilDiv (B - s.delay_duration)
            ({ s with latency_due_to_resource :=
              s.latency_due_to_resource + s.delay_duration } :
                EngineState).delay_duration.toNat < f := by
          show ceilDiv (B - s.delay_duration) s.delay_duration.toNat < f
          omega
        obtain ⟨s', h1, h2, h3⟩ :=
          ih { s with latency_due_to_resource :=
                s.latency_due_to_resource + s.delay_duration }
            (t + s.delay_duration) (B - s.delay_duration) vm f hN' hnc' hd hfuel'
        refine ⟨s', ?_, h2, ?_⟩
        · rw [hstep, h1, hrec]
          rfl
        · rw [h3, hrec]
          push_cast
          ring
    · rw [ceilDiv_of_nonpos hB] at hfuel ⊢
      refine ⟨_, postponeDrive_fail s t vm B fuel hnc hB hfuel, rfl, by simp⟩

/-- C10: a requirement that never finds a candidate (no candidate
exists for its VM against the engine's machines, which the requirement
handler never changes), with `delay_duration = d > 0` and initial
buffer `B >= 0`, is re-emitted exactly `ceil(B/d)` times — the budget
may go negative on the last re-emission since the handler tests
`buffer > 0` before subtracting `d` — after which `failed_requirements`
is incremented exactly once; the total added to
`latency_due_to_resource` is `d * ceil(B/d)`, which exceeds `B`
whenever `d` does not divide `B`. -/
theorem postponement_chain_spec (s : EngineState) (t : Int) (vm : VirtualMachine)
    (B : Int) (fuel : Nat)
    (hnc : valid_pm_list s.machines vm = [])
    (hd : 0 < s.delay_duration)
    (hB : 0 ≤ B)
    (hfuel : ceilDiv B s.delay_duration.toNat < fuel) :
    ∃ s', postponeDrive fuel s t vm B =
        some (s', ceilDiv B s.delay_duration.toNat) ∧
      s'.failed_requirements = s.failed_requirements + 1 ∧
      s'.latency_due_to_resource = s.latency_due_to_resource
        + s.delay_duration * (ceilDiv B s.delay_duration.toNat : Int) ∧
      (¬ s.delay_duration ∣ B →
        B < s.delay_duration * (ceilDiv B s.delay_duration.toNat : Int)) := by
  obtain ⟨s', h1, h2, h3⟩ := postpone_chain_aux B.toNat s t B vm fuel le_rfl hnc hd hfuel
  exact ⟨s', h1, h2, h3, fun hndvd => ceilDiv_exceeds hB hd hndvd⟩

/-- Closed instance of C10: against the fully loaded engine
(`delay_duration = 5`), a request with buffer 3 is re-emitted once,
then fails, having charged 5 ticks of resource latency — more than its
3-tick budget. -/
theorem postponement_chain_spec_witness :
    ∃ s', postponeDrive 2 fullState 0 demoVm 3 =
        some (s', ceilDiv 3 fullState.delay_duration.toNat) ∧
      s'.failed_requirements = fullState.failed_requirements + 1 ∧
      s'.latency_due_to_resource = fullState.latency_due_to_resource
        + fullState.delay_duration * (ceilDiv 3 fullState.delay_duration.toNat : Int) ∧
      (¬ fullState.delay_duration ∣ 3 →
        3 < fullState.delay_duration * (ceilDiv 3 fullState.delay_duration.toNat : Int)) :=
  postponement_chain_spec fullState 0 demoVm 3 2 (by decide) (by decide)
    (by decide) (by decide)


/-- Closed instance of C9: finishing `hostedVm` once on `hostedState`,
then redelivering the same finish event. -/
theorem finish_idempotent_release_witness :
    ∃ s',
      on_vm_finished hostedState 7 = some s' ∧
      7 ∉ (s'.machines.getD 0 default).vm_set ∧
      (∀ j, j ≠ 0 → s'.machines.getD j default = hostedState.machines.getD j default) ∧
      tblLookup s'.vm_table 7 = none ∧
      s'.successful_requirements = hostedState.successful_requirements + 1 ∧
      on_vm_finished s' 7 = none :=
  finish_idempotent_release hostedState 7 hostedVm 0 rfl (by decide) (by decide)
    (by decide)

/-! ### C7: conservation of reservations -/

/-- The part of a field `f` reserved on machine index `i`: the sum of
`f` over the live VMs whose `pm_id` resolves (Python indexing into a
list of length `n`) to `i`. -/
def tblSumAt (f : VirtualMachine → Int) (n : Nat)
    (tbl : List (Int × VirtualMachine)) (i : Nat) : Int :=
  ((tbl.filter (fun e => decide (pyIdx n (e.2).pm_id = some i))).map
    (fun e => f e.2)).sum

/-- The sum of a field over all live VMs. -/
def tblTotal (f : VirtualMachine → Int) (tbl : List (Int × VirtualMachine)) : Int :=
  (tbl.map (fun e => f e.2)).sum

/-- The sum of a field over all machines. -/
def pmTotal (f : PhysicalMachine → Int) (ms : List PhysicalMachine) : Int :=
  (ms.map f).sum

theorem tblSumAt_append (f : VirtualMachine → Int) (n : Nat)
    (l1 l2 : List (Int × VirtualMachine)) (i : Nat) :
    tblSumAt f n (l1 ++ l2) i = tblSumAt f n l1 i + tblSumAt f n l2 i := by
  simp [tblSumAt, List.filter_append]

theorem tblSumAt_single (f : VirtualMachine → Int) (n : Nat) (e : Int × VirtualMachine)
    (i : Nat) :
    tblSumAt f n [e] i =
      if pyIdx n (e.2).pm_id = some i then f e.2 else 0 := by
  simp only [tblSumAt, List.filter]
  split <;> rename_i h
  · rw [if_pos (of_decide_eq_true h)]
    simp
  · rw [if_neg (of_decide_eq_false h)]
    simp

theorem tblSumAt_perm (f : VirtualMachine → Int) (n : Nat)
    {l1 l2 : List (Int × VirtualMachine)} (h : List.Perm l1 l2) (i : Nat) :
    tblSumAt f n l1 i = tblSumAt f n l2 i :=
  ((h.filter _).map _).sum_eq

theorem tblSumAt_cons (f : VirtualMachine → Int) (n : Nat) (e : Int × VirtualMachine)
    (l : List (Int × VirtualMachine)) (i : Nat) :
    tblSumAt f n (e :: l) i =
      (if pyIdx n (e.2).pm_id = some i then f e.2 else 0) + tblSumAt f n l i := by
  have : e :: l = [e] ++ l := rfl
  rw [this, tblSumAt_append, tblSumAt_single]

theorem tblTotal_append (f : VirtualMachine → Int)
    (l1 l2 : List (Int × VirtualMachine)) :
    tblTotal f (l1 ++ l2) = tblTotal f l1 + tblTotal f l2 := by
  simp [tblTotal]

theorem tblTotal_perm (f : VirtualMachine → Int)
    {l1 l2 : List (Int × VirtualMachine)} (h : List.Perm l1 l2) :
    tblTotal f l1 = tblTotal f l2 :=
  (h.map _).sum_eq

theorem pmTotal_set (f : PhysicalMachine → Int) (ms : List PhysicalMachine)
    (i : Nat) (h : i < ms.length) (pm : PhysicalMachine) :
    pmTotal f (ms.set i pm) = pmTotal f ms + f pm - f (ms.getD i default) :=
  sum_map_set f ms i h pm

/-- The bookkeeping invariant tying the machine records to the live VM
table: unique table keys, duplicate-free `vm_set`s, every live VM's
`pm_id` resolves to a machine index, `vm_set` membership coincides with
hosting in the table, each machine's reservations equal the sums over
its hosted VMs, and the totals over machines and over live VMs agree. -/
def ConsInv (s : EngineState) : Prop :=
  (s.vm_table.map Prod.fst).Nodup ∧
  (∀ i, i < s.machines.length → (s.machines.getD i default).vm_set.Nodup) ∧
  (∀ e ∈ s.vm_table, ∃ i, pyIdx s.machines.length (e.2).pm_id = some i) ∧
  (∀ i, i < s.machines.length → ∀ id : Int,
    (id ∈ (s.machines.getD i default).vm_set ↔
      ∃ vm, (id, vm) ∈ s.vm_table ∧
        pyIdx s.machines.length vm.pm_id = some i)) ∧
  (∀ i, i < s.machines.length →
    (s.machines.getD i default).req_cpu =
      tblSumAt (fun vm => vm.req_cpu) s.machines.length s.vm_table i ∧
    (s.machines.getD i default).req_mem =
      tblSumAt (fun vm => vm.req_mem) s.machines.length s.vm_table i) ∧
  pmTotal (fun pm => pm.req_cpu) s.machines =
    tblTotal (fun vm => vm.req_cpu) s.vm_table ∧
  pmTotal (fun pm => pm.req_mem) s.machines =
    tblTotal (fun vm => vm.req_mem) s.vm_table

/-- A freshness-respecting op: an assign action's VM id is not already
a key of the live table.  Requirement and finish ops are unrestricted. -/
def FreshOp (s : EngineState) (op : Op) : Prop :=
  match op with
  | .takeAction _ a => a.assign = true → tblLookup s.vm_table a.vm_req.id = none
  | _ => True

/-- The conservation property of the claim: every live VM is hosted (per
`vm_set`) on exactly one PM, each PM's reservation totals are exactly
the sums over the VMs it hosts, and summing reservations over all PMs
equals summing requirements over all live VMs. -/
def Conservation (s : EngineState) : Prop :=
  (∀ e ∈ s.vm_table, ∃ i, i < s.machines.length ∧
    e.1 ∈ (s.machines.getD i default).vm_set ∧
    ∀ j, j < s.machines.length →
      e.1 ∈ (s.machines.getD j default).vm_set → j = i) ∧
  (∀ i, i < s.machines.length →
    (s.machines.getD i default).req_cpu =
      tblSumAt (fun vm => vm.req_cpu) s.machines.length s.vm_table i ∧
    (s.machines.getD i default).req_mem =
      tblSumAt (fun vm => vm.req_mem) s.machines.length s.vm_table i) ∧
  pmTotal (fun pm => pm.req_cpu) s.machines =
    tblTotal (fun vm => vm.req_cpu) s.vm_table ∧
  pmTotal (fun pm => pm.req_mem) s.machines =
    tblTotal (fun vm => vm.req_mem) s.vm_table

theorem consInv_conservation {s : EngineState} (h : ConsInv s) : Conservation s := by
  obtain ⟨hkeys, hsets, hres, hmem, hsums, htot⟩ := h
  refine ⟨?_, hsums, htot⟩
  intro e he
  obtain ⟨i, hi⟩ := hres e he
  have hlt : i < s.machines.length := pyIdx_lt hi
  refine ⟨i, hlt, ?_, ?_⟩
  · exact (hmem i hlt e.1).mpr ⟨e.2, by simpa using he, hi⟩
  · intro j hj hmemj
    obtain ⟨vm', hvm', hj'⟩ := (hmem j hj e.1).mp hmemj
    have : vm' = e.2 := keys_nodup_val_eq hkeys hvm' (by simpa using he)
    subst this
    rw [hi] at hj'
    exact (Option.some_inj.mp hj').symm


theorem tblTotal_single (f : VirtualMachine → Int) (e : Int × VirtualMachine) :
    tblTotal f [e] = f e.2 := by
  simp [tblTotal]

theorem consInv_assign {s : EngineState} {t : Int} {a : Action} {i : Nat}
    (hInv : ConsInv s) (ha : a.assign = true)
    (hp : pyIdx s.machines.length a.pm_id = some i)
    (hfresh : tblLookup s.vm_table a.vm_req.id = none)
    {s' : EngineState}
    (hstep : applyOp s (Op.takeAction t a) = some s') : ConsInv s' := by
  obtain ⟨hkeys, hsets, hres, hmem, hsums, htotc, htotm⟩ := hInv
  have hilt : i < s.machines.length := pyIdx_lt hp
  have hknotin : a.vm_req.id ∉ s.vm_table.map Prod.fst := tblLookup_eq_none.mp hfresh
  have hknotset : ∀ j, j < s.machines.length →
      a.vm_req.id ∉ (s.machines.getD j default).vm_set := by
    intro j hj hmemk
    obtain ⟨vm', hvm', hdum⟩ := (hmem j hj _).mp hmemk
    exact hknotin (List.mem_map_of_mem Prod.fst hvm')
  simp only [applyOp, applyAssignOrPostpone, ha, if_true, hp, Option.some.injEq] at hstep
  rw [tblInsert_of_fresh _ hfresh] at hstep
  subst hstep
  refine ⟨?_, ?_, ?_, ?_, ?_, ?_, ?_⟩
  · rw [List.map_append]
    refine List.Nodup.append hkeys (List.nodup_singleton _) ?_
    intro x hx hx2
    simp only [List.map_cons, List.map_nil, List.mem_cons, List.not_mem_nil,
      or_false] at hx2
    exact hknotin (hx2 ▸ hx)
  · intro j hj
    simp only [List.length_set] at hj
    by_cases hji : j = i
    · subst hji
      rw [getD_set_self hj]
      show ((s.machines.getD j default).add_vm a.vm_req.id).vm_set.Nodup
      dsimp only [PhysicalMachine.add_vm]
      rw [if_neg (hknotset j hj)]
      refine List.Nodup.append (hsets j hj) (List.nodup_singleton _) ?_
      intro x hx hx2
      simp only [List.mem_cons, List.not_mem_nil, or_false] at hx2
      exact hknotset j hj (hx2 ▸ hx)
    · rw [getD_set_ne (fun h => hji h.symm)]
      exact hsets j hj
  · intro e he
    simp only [List.length_set]
    rcases List.mem_append.mp he with hold | hnew
    · exact hres e hold
    · simp only [List.mem_cons, List.not_mem_nil, or_false] at hnew
      subst hnew
      exact ⟨i, hp⟩
  · intro j hj id
    simp only [List.length_set] at hj ⊢
    by_cases hji : j = i
    · subst hji
      rw [getD_set_self hj]
      show id ∈ ((s.machines.getD j default).add_vm a.vm_req.id).vm_set ↔ _
      dsimp only [PhysicalMachine.add_vm]
      rw [if_neg (hknotset j hj)]
      constructor
      · intro hid
        rcases List.mem_append.mp hid with hin | hk
        · obtain ⟨vm', h1, h2⟩ := (hmem j hj id).mp hin
          exact ⟨vm', List.mem_append_left _ h1, h2⟩
        · simp only [List.mem_cons, List.not_mem_nil, or_false] at hk
          subst hk
          exact ⟨_, List.mem_append_right _ (List.mem_singleton_self _), hp⟩
      · rintro ⟨vm', hm', hidx⟩
        rcases List.mem_append.mp hm' with hin | hnew
        · exact List.mem_append_left _ ((hmem j hj id).mpr ⟨vm', hin, hidx⟩)
        · simp only [List.mem_cons, List.not_mem_nil, or_false,
            Prod.mk.injEq] at hnew
          exact List.mem_append_right _ (by simp [hnew.1])
    · rw [getD_set_ne (fun h => hji h.symm)]
      constructor
      · intro hid
        obtain ⟨vm', h1, h2⟩ := (hmem j hj id).mp hid
        exact ⟨vm', List.mem_append_left _ h1, h2⟩
      · rintro ⟨vm', hm', hidx⟩
        rcases List.mem_append.mp hm' with hin | hnew
        · exact (hmem j hj id).mpr ⟨vm', hin, hidx⟩
        · simp only [List.mem_cons, List.not_mem_nil, or_false,
            Prod.mk.injEq] at hnew
          obtain ⟨h1, h2⟩ := hnew
          subst h2
          exfalso
          exact hji (Option.some_inj.mp (hp.symm.trans hidx)).symm
  · intro j hj
    simp only [List.length_set] at hj ⊢
    by_cases hji : j = i
    · subst hji
      rw [getD_set_self hj, tblSumAt_append, tblSumAt_append, tblSumAt_single,
        tblSumAt_single, if_pos hp, if_pos hp]
      dsimp only
      have h1 := (hsums j hj).1
      have h2 := (hsums j hj).2
      constructor
      · show (s.machines.getD j default).req_cpu + a.vm_req.req_cpu = _
        omega
      · show (s.machines.getD j default).req_mem + a.vm_req.req_mem = _
        omega
    · have hcond : ¬ pyIdx s.machines.length a.pm_id = some j :=
        fun hc => hji (Option.some_inj.mp (hp.symm.trans hc)).symm
      rw [getD_set_ne (fun h => hji h.symm), tblSumAt_append, tblSumAt_append,
        tblSumAt_single, tblSumAt_single, if_neg hcond, if_neg hcond,
        add_zero, add_zero]
      exact hsums j hj
  · rw [pmTotal_set _ _ _ hilt, tblTotal_append, tblTotal_single]
    dsimp only
    show pmTotal _ s.machines
        + ((s.machines.getD i default).req_cpu + a.vm_req.req_cpu)
        - (s.machines.getD i default).req_cpu = _
    omega
  · rw [pmTotal_set _ _ _ hilt, tblTotal_append, tblTotal_single]
    dsimp only
    show pmTotal _ s.machines
        + ((s.machines.getD i default).req_mem + a.vm_req.req_mem)
        - (s.machines.getD i default).req_mem = _
    omega


theorem tblTotal_cons (f : VirtualMachine → Int) (e : Int × VirtualMachine)
    (l : List (Int × VirtualMachine)) :
    tblTotal f (e :: l) = f e.2 + tblTotal f l := by
  simp [tblTotal]

theorem consInv_finish {s : EngineState} {vm_id : Int}
    (hInv : ConsInv s) {s' : EngineState}
    (hstep : applyOp s (Op.finished vm_id) = some s') : ConsInv s' := by
  obtain ⟨hkeys, hsets, hres, hmem, hsums, htotc, htotm⟩ := hInv
  cases hl : tblLookup s.vm_table vm_id with
  | none => simp [applyOp, on_vm_finished, hl] at hstep
  | some vm =>
    cases hp : pyIdx s.machines.length vm.pm_id with
    | none => simp [applyOp, on_vm_finished, hl, hp] at hstep
    | some i =>
      simp only [applyOp, on_vm_finished, hl, hp, Option.some.injEq] at hstep
      subst hstep
      have hilt : i < s.machines.length := pyIdx_lt hp
      have hkmem : (vm_id, vm) ∈ s.vm_table := tblLookup_mem hl
      have hperm := perm_tblErase hl
      have hkeys' : ((tblErase s.vm_table vm_id).map Prod.fst).Nodup :=
        hkeys.sublist ((tblErase_sublist _ _).map Prod.fst)
      have hmemE := mem_tblErase_iff hkeys hl
      refine ⟨hkeys', ?_, ?_, ?_, ?_, ?_, ?_⟩
      · intro j hj
        simp only [List.length_set] at hj
        by_cases hji : j = i
        · subst hji
          rw [getD_set_self hj]
          dsimp only [PhysicalMachine.remove_vm]
          exact (hsets j hj).sublist (List.erase_sublist _ _)
        · rw [getD_set_ne (fun h => hji h.symm)]
          exact hsets j hj
      · intro e he
        simp only [List.length_set]
        exact hres e ((tblErase_sublist _ _).subset he)
      · intro j hj id
        simp only [List.length_set] at hj ⊢
        by_cases hji : j = i
        · subst hji
          rw [getD_set_self hj]
          dsimp only [PhysicalMachine.remove_vm]
          rw [List.Nodup.mem_erase_iff (hsets j hj)]
          constructor
          · rintro ⟨hne, hin⟩
            obtain ⟨vm', h1, h2⟩ := (hmem j hj id).mp hin
            refine ⟨vm', (hmemE (id, vm')).mpr ⟨h1, ?_⟩, h2⟩
            intro hc
            rw [Prod.mk.injEq] at hc
            exact hne hc.1
          · rintro ⟨vm', hm', hidx⟩
            obtain ⟨h1, h2⟩ := (hmemE (id, vm')).mp hm'
            refine ⟨?_, (hmem j hj id).mpr ⟨vm', h1, hidx⟩⟩
            intro hc
            subst hc
            exact h2 (by rw [keys_nodup_val_eq hkeys h1 hkmem])
        · rw [getD_set_ne (fun h => hji h.symm)]
          constructor
          · intro hin
            obtain ⟨vm', h1, h2⟩ := (hmem j hj id).mp hin
            refine ⟨vm', (hmemE (id, vm')).mpr ⟨h1, ?_⟩, h2⟩
            intro hc
            rw [Prod.mk.injEq] at hc
            obtain ⟨hc1, hc2⟩ := hc
            subst hc2
            exact hji (Option.some_inj.mp (hp.symm.trans h2)).symm
          · rintro ⟨vm', hm', hidx⟩
            exact (hmem j hj id).mpr ⟨vm', ((hmemE (id, vm')).mp hm').1, hidx⟩
      · intro j hj
        simp only [List.length_set] at hj ⊢
        have hsum_c := tblSumAt_perm (fun vm => vm.req_cpu) s.machines.length hperm j
        have hsum_m := tblSumAt_perm (fun vm => vm.req_mem) s.machines.length hperm j
        rw [tblSumAt_cons] at hsum_c hsum_m
        dsimp only at hsum_c hsum_m
        have h1 := (hsums j hj).1
        have h2 := (hsums j hj).2
        by_cases hji : j = i
        · subst hji
          rw [getD_set_self hj]
          dsimp only [PhysicalMachine.remove_vm]
          rw [if_pos hp] at hsum_c hsum_m
          constructor
          · show (s.machines.getD j default).req_cpu - vm.req_cpu = _
            omega
          · show (s.machines.getD j default).req_mem - vm.req_mem = _
            omega
        · have hcond : ¬ pyIdx s.machines.length vm.pm_id = some j :=
            fun hc => hji (Option.some_inj.mp (hp.symm.trans hc)).symm
          rw [if_neg hcond, zero_add] at hsum_c hsum_m
          rw [getD_set_ne (fun h => hji h.symm)]
          constructor
          · omega
          · omega
      · have htt := tblTotal_perm (fun vm => vm.req_cpu) hperm
        rw [tblTotal_cons] at htt
        dsimp only at htt
        rw [pmTotal_set _ _ _ hilt]
        dsimp only [PhysicalMachine.remove_vm]
        show pmTotal _ s.machines
            + ((s.machines.getD i default).req_cpu - vm.req_cpu)
            - (s.machines.getD i default).req_cpu = _
        omega
      · have htt := tblTotal_perm (fun vm => vm.req_mem) hperm
        rw [tblTotal_cons] at htt
        dsimp only at htt
        rw [pmTotal_set _ _ _ hilt]
        dsimp only [PhysicalMachine.remove_vm]
        show pmTotal _ s.machines
            + ((s.machines.getD i default).req_mem - vm.req_mem)
            - (s.machines.getD i default).req_mem = _
        omega


theorem consInv_congr {s s' : EngineState} (h1 : s'.machines = s.machines)
    (h2 : s'.vm_table = s.vm_table) (h : ConsInv s) : ConsInv s' := by
  unfold ConsInv at h ⊢
  rw [h1, h2]
  exact h

theorem consInv_step {s s' : EngineState} {op : Op}
    (hInv : ConsInv s) (hf : FreshOp s op) (hstep : applyOp s op = some s') :
    ConsInv s' := by
  cases op with
  | required t vm b =>
    simp only [applyOp, Option.some.injEq] at hstep
    subst hstep
    obtain ⟨h1, h2⟩ := on_vm_required_frame s t vm b
    exact consInv_congr h1 h2 hInv
  | takeAction t a =>
    cases ha : a.assign with
    | false =>
      by_cases hb : a.buffer_time > 0 <;>
        simp only [applyOp, applyAssignOrPostpone, ha, Bool.false_eq_true, if_false,
          hb, ite_true, ite_false, Option.some.injEq] at hstep <;>
        (try subst hstep) <;>
        exact consInv_congr rfl rfl hInv
    | true =>
      cases hp : pyIdx s.machines.length a.pm_id with
      | none => simp [applyOp, applyAssignOrPostpone, ha, hp] at hstep
      | some i => exact consInv_assign hInv ha hp (hf ha) hstep
  | finished vm_id => exact consInv_finish hInv hstep

theorem consInv_run {s₀ s : EngineState} (hinit : ConsInv s₀)
    (h : RunFrom FreshOp s₀ s) : ConsInv s := by
  induction h with
  | refl => exact hinit
  | step hrun hgood hstep ih => exact consInv_step ih hgood hstep

theorem initState_length (d : Int) (n : Nat) (cc cm : Int) :
    (initState d n cc cm).machines.length = n := by
  simp [initState]

theorem initState_getD (d : Int) (n : Nat) (cc cm : Int) {i : Nat} (h : i < n) :
    (initState d n cc cm).machines.getD i default =
      { id := i, cap_cpu := cc, cap_mem := cm, req_cpu := 0, req_mem := 0,
        util_cpu := 0, vm_set := [] } := by
  rw [List.getD_eq_getElem?_getD]
  simp [initState, List.getElem?_map, List.getElem?_range, h]

theorem sum_map_const_zero {α : Type} (l : List α) (f : α → Int)
    (h : ∀ a ∈ l, f a = 0) : (l.map f).sum = 0 := by
  induction l with
  | nil => rfl
  | cons x t ih =>
    simp only [List.map_cons, List.sum_cons, h x (List.mem_cons_self x t)]
    rw [ih (fun a ha => h a (List.mem_cons_of_mem x ha)), zero_add]

theorem consInv_init (d : Int) (n : Nat) (cc cm : Int) :
    ConsInv (initState d n cc cm) := by
  refine ⟨by simp [initState], ?_, by simp [initState], ?_, ?_, ?_, ?_⟩
  · intro i hi
    rw [initState_length] at hi
    rw [initState_getD d n cc cm hi]
    simp
  · intro i hi id
    rw [initState_length] at hi
    rw [initState_getD d n cc cm hi]
    simp [initState]
  · intro i hi
    rw [initState_length] at hi
    rw [initState_getD d n cc cm hi]
    simp [tblSumAt, initState]
  · simp only [pmTotal, tblTotal, initState, List.map_map, List.map_nil, List.sum_nil]
    exact sum_map_const_zero _ _ (fun a ha => rfl)
  · simp only [pmTotal, tblTotal, initState, List.map_map, List.map_nil, List.sum_nil]
    exact sum_map_const_zero _ _ (fun a ha => rfl)

/-- The next VM id used for the duplicate-assign counterexample: the
same assign action delivered twice. -/
def dupAssignOp : Op :=
  Op.takeAction 0 { vm_req := demoVm, assign := true, pm_id := 0, buffer_time := 0 }

/-- The engine after assigning `demoVm` once. -/
def dupState1 : EngineState := (applyOp demoState dupAssignOp).getD demoState

/-- The engine after assigning `demoVm` twice. -/
def dupState2 : EngineState := (applyOp dupState1 dupAssignOp).getD dupState1

/-- C7 counterexample: delivering the same assign action twice from the
initial state (the handler applies any action, with no freshness check)
books `demoVm`'s reservation on PM 0 twice while the live table holds
the VM once, so the sum of `req_cpu` over the PMs no longer equals the
sum over the live VMs. -/
theorem conservation_counterexample :
    RunFrom AnyOp demoState dupState2 ∧
    pmTotal (fun pm => pm.req_cpu) dupState2.machines ≠
      tblTotal (fun vm => vm.req_cpu) dupState2.vm_table := by
  constructor
  · have h1 : applyOp demoState dupAssignOp = some dupState1 := rfl
    have h2 : applyOp dupState1 dupAssignOp = some dupState2 := rfl
    exact RunFrom.step (RunFrom.step (RunFrom.refl demoState) trivial h1) trivial h2
  · decide

/-- C7 as amended: after any sequence of handler invocations from the
initial state in which every assign action's VM id is not already in
the live table, every live VM is hosted on exactly one PM (the one
whose `vm_set` holds its id), each PM's `req_cpu`/`req_mem` equal the
sums over the VMs it hosts, and the totals over all PMs equal the
totals over all live VMs.  Each assign adds the VM's reservation to
exactly one PM and each finish removes it from exactly that PM, but a
duplicate assign of a live VM id double-counts its reservation. -/
theorem conservation_of_fresh_runs (d : Int) (n : Nat) (cc cm : Int)
    (s : EngineState) (h : RunFrom FreshOp (initState d n cc cm) s) :
    Conservation s :=
  consInv_conservation (consInv_run (consInv_init d n cc cm) h)

/-- Closed instance of C7 as amended, at the empty run from the fresh
one-PM engine. -/
theorem conservation_of_fresh_runs_witness : Conservation demoState :=
  conservation_of_fresh_runs 5 1 100 100 demoState (RunFrom.refl demoState)

end DataCenter
